import Mathlib

/-!
Shallow embedding of the INCF NIDASH notebooks repository (FreeSurfer to
PROV conversion scripts) and proofs about its claimed behaviour.

Embedded source files:
  - fs_upload_to_triplesore.py : hash_infile, create_entity, encode_fs_directory
  - query_convert_fs_stats.py  : parse_stats (measure loop and entity merging)
  - scripts/csv2prov.py        : safe_encode, csv2provgraph (row loop)

Python strings that denote paths and filenames are modelled as lists of
characters, so that the Python substring, split and strip operations can be
given as small executable recursive functions.  Filesystem reads are passed
in explicitly: a file system maps a path to the byte content of the file
when the path refers to an existing regular file, and to none otherwise.
Digest algorithms are abstracted as functions from byte sequences to hex
strings (extensionally, a hashlib object's hexdigest is a function of all
bytes fed to update).  Qualified RDF names such as prov:type are rendered
as plain strings.
-/

/-- Model of a Python string used as a path or filename: its character list. -/
abbrev PyStr := List Char

/-- Model of the Python substring test `sub in s`. -/
def isSubL (sub : PyStr) : PyStr → Bool
  | [] => sub.isEmpty
  | c :: rest => sub.isPrefixOf (c :: rest) || isSubL sub rest

/-- Fuel-driven helper for Python `s.split(sep)` with a nonempty separator.
The fuel is an upper bound on the number of characters consumed; with fuel
at least the length of the string the fuel never runs out. -/
def pySplitF : Nat → PyStr → PyStr → List PyStr
  | 0, _, s => [s]
  | _ + 1, _, [] => [[]]
  | fuel + 1, sep, c :: rest =>
    if sep.isPrefixOf (c :: rest) && !sep.isEmpty then
      [] :: pySplitF fuel sep (rest.drop (sep.length - 1))
    else
      match pySplitF fuel sep rest with
      | [] => [[c]]
      | p :: ps => (c :: p) :: ps

/-- Model of Python `s.split(sep)` for a nonempty separator `sep`:
splits `s` at every non-overlapping occurrence of `sep`, consuming it. -/
def pySplit (sep s : PyStr) : List PyStr := pySplitF s.length sep s

/-- Model of `os.path.split(p)[1]`: the part of the path after the last slash. -/
def filenameOf (p : PyStr) : PyStr :=
  (p.reverse.takeWhile (fun c => !(c == '/'))).reverse

/-- Model of Python `s.lstrip(os.path.sep)`: drop leading slashes. -/
def lstripSlash (p : PyStr) : PyStr := p.dropWhile (fun c => c == '/')

/-- Model of Python `key.rstrip('.').lstrip('.')`: drop trailing then leading dots. -/
def stripDots (p : PyStr) : PyStr :=
  ((p.reverse.dropWhile (fun c => c == '.')).reverse).dropWhile (fun c => c == '.')

/-- A file system, as seen by `hash_infile` and `create_entity`: a path maps
to the byte content of the file when the path refers to an existing regular
file (`os.path.isfile` true), and to none otherwise. -/
abbrev FileSys := PyStr → Option (List Nat)

/-- Fuel-driven model of the chunked read loop of `hash_infile`
(fs_upload_to_triplesore.py lines 23 to 28): repeatedly read `clen` bytes
and feed them to the digest object until a read returns no data.  The
accumulator is the byte sequence fed to the digest object so far. -/
def readLoopF : Nat → Nat → List Nat → List Nat → List Nat
  | 0, _, _, acc => acc
  | fuel + 1, clen, bytes, acc =>
    let data := bytes.take clen
    if data.isEmpty then acc
    else readLoopF fuel clen (bytes.drop clen) (acc ++ data)

/-- Model of `hash_infile(afile, crypto, chunk_len)`
(fs_upload_to_triplesore.py lines 17 to 30): `hex` starts as None; when the
path refers to an existing regular file the file is read in chunks of
`chunk_len` bytes and the digest of the bytes that were read is returned,
otherwise None is returned.  The digest algorithm `alg` maps the byte
sequence fed to the hashlib object to its hexdigest string. -/
def hash_infile (fs : FileSys) (alg : List Nat → String) (afile : PyStr)
    (chunk_len : Nat) : Option String :=
  match fs afile with
  | none => none
  | some content => some (alg (readLoopF (content.length + 1) chunk_len content []))

/-- A file met during the `os.walk` traversal of `encode_fs_directory`:
its base name, the real path `os.path.realpath(os.path.join(dirpath, filename))`,
and whether `os.path.isfile` holds for that real path. -/
structure FSFile where
  fname : PyStr
  rpath : PyStr
  isFile : Bool
deriving DecidableEq

/-- The ignore list of fs_upload_to_triplesore.py line 75. -/
def ignore_list : List PyStr :=
  ["bak".toList, "src".toList, "tmp".toList, "trash".toList, "touch".toList]

/-- Model of `filename.startswith('.')`. -/
def hiddenB (f : FSFile) : Bool := ['.'].isPrefixOf f.fname

/-- Model of the ignore loop of encode_fs_directory (lines 157 to 161):
`ignore_key_found` is set when some ignore key occurs in the full real path. -/
def ignoredB (f : FSFile) : Bool := ignore_list.any (fun k => isSubL k f.rpath)

/-- A file that the traversal encodes: not hidden, a regular file, and not
matching the ignore list. -/
def eligibleB (f : FSFile) : Bool := !hiddenB f && f.isFile && !ignoredB f

/-- Model of the inner `for filename in sorted(filenames)` loop of
`encode_fs_directory` (lines 147 to 168) for one directory of the walk.
Input: the files of the directory in sorted order, the current item counter
and the cap `n_items`.  Output: the files for which an entity is created and
linked to the collection via hadMember, and the counter after the loop.
A hidden file is skipped before the counter increment; every other file
increments the counter, and when the counter exceeds the cap the loop breaks;
a non-regular or ignore-matching file is skipped after the increment. -/
def processDir : List FSFile → Nat → Nat → List FSFile × Nat
  | [], i, _ => ([], i)
  | f :: rest, i, cap =>
    if hiddenB f then processDir rest i cap
    else if cap < i + 1 then ([], i + 1)
    else if !f.isFile then processDir rest (i + 1) cap
    else if ignoredB f then processDir rest (i + 1) cap
    else
      let r := processDir rest (i + 1) cap
      (f :: r.1, r.2)

/-- Model of the outer `for dirpath, dirnames, filenames in os.walk(...)` loop
of `encode_fs_directory`: the item counter is threaded through all
directories of the walk (the `break` only leaves the inner loop). -/
def encodeDirs : List (List FSFile) → Nat → Nat → List FSFile
  | [], _, _ => []
  | d :: ds, i, cap =>
    let r := processDir d i cap
    r.1 ++ encodeDirs ds r.2 cap

/-- Model of `encode_fs_directory(g, basedir, ..., n_items)` restricted to the
file entities it creates and links: `walk` is the list of directories
produced by `os.walk`, each a sorted list of files; the result is the list
of files for which an entity is created and a hadMember edge added, in
order.  The collection, directory, activity and agent records do not depend
on the traversal and are not modelled. -/
def encode_fs_directory (walk : List (List FSFile)) (n_items : Nat) : List FSFile :=
  encodeDirs walk 0 n_items

/-- One element of the uri list of an fs_file_map entry: either a bare term
(recorded as prov:type) or an attribute-value pair. -/
inductive FAttr where
  | plain (u : String)
  | pairAV (k v : String)
deriving DecidableEq

/-- How an fs_file_map uri element becomes an attribute of the entity
(fs_upload_to_triplesore.py lines 110 to 114). -/
def fattrToAttr : FAttr → String × String
  | .plain u => ("prov:type", u)
  | .pairAV k v => (k, v)

/-- The FreeSurfer filename-part map of fs_upload_to_triplesore.py
lines 43 to 72, with qualified names rendered as prefix:name strings. -/
def fs_file_map : List (PyStr × List FAttr) :=
  [("T1".toList, [.plain "nif:nlx_inv_20090243"]),
   ("lh".toList, [.pairAV "nidm:AnatomicalAnnotation" "obo:UBERON_0002812"]),
   ("rh".toList, [.pairAV "nidm:AnatomicalAnnotation" "obo:UBERON_0002813"]),
   ("BA.".toList, [.pairAV "nidm:AnatomicalAnnotation" "obo:UBERON_0013529"]),
   ("BA1.".toList, [.pairAV "nidm:AnatomicalAnnotation" "obo:UBERON_0006099"]),
   ("BA2.".toList, [.pairAV "nidm:AnatomicalAnnotation" "obo:UBERON_0013533"]),
   ("BA3a.".toList, [.pairAV "nidm:AnatomicalAnnotation" "obo:UBERON_0006100",
                     .pairAV "nidm:AnatomicalAnnotation" "obo:FMA_74532"]),
   ("BA3b.".toList, [.pairAV "nidm:AnatomicalAnnotation" "obo:UBERON_0006100",
                     .pairAV "nidm:AnatomicalAnnotation" "obo:FMA_74533"]),
   ("BA44.".toList, [.pairAV "nidm:AnatomicalAnnotation" "obo:UBERON_0006481"]),
   ("BA45.".toList, [.pairAV "nidm:AnatomicalAnnotation" "obo:UBERON_0006482"]),
   ("BA4a.".toList, [.pairAV "nidm:AnatomicalAnnotation" "obo:UBERON_0013535",
                     .pairAV "nidm:AnatomicalAnnotation" "obo:FMA_74532"]),
   ("BA4p.".toList, [.pairAV "nidm:AnatomicalAnnotation" "obo:UBERON_0013535",
                     .pairAV "nidm:AnatomicalAnnotation" "obo:FMA_74533"]),
   ("BA6.".toList, [.pairAV "nidm:AnatomicalAnnotation" "obo:UBERON_0006472"]),
   ("V1.".toList, [.pairAV "nidm:AnatomicalAnnotation" "obo:UBERON_0002436"]),
   ("V2.".toList, [.pairAV "nidm:AnatomicalAnnotation" "obo:UBERON_0006473"]),
   ("MT".toList, [.pairAV "nidm:AnatomicalAnnotation" "fs:MT_area"]),
   ("entorhinal".toList, [.pairAV "nidm:AnatomicalAnnotation" "obo:UBERON_0002728"]),
   ("exvivo".toList, [.pairAV "nidm:AnnotationSource" "fs:exvivo"]),
   ("label".toList, [.pairAV "fs:FileType" "fs:label_file"]),
   ("annot".toList, [.pairAV "fs:FileType" "fs:annotation_file"]),
   ("cortex".toList, [.pairAV "nidm:AnatomicalAnnotation" "obo:UBERON_0000956"]),
   (".stats".toList, [.pairAV "fs:FileType" "fs:statistic_file"]),
   ("aparc.annot".toList, [.pairAV "nidm:AtlasName" "fs:default_parcellation"]),
   ("aparc.a2009s".toList, [.pairAV "nidm:AtlasName" "fs:a2009s_parcellation"]),
   (".ctab".toList, [.pairAV "fs:FileType" "fs:color_table"])]

/-- Model of the fs_file_map loop of `create_entity`
(fs_upload_to_triplesore.py lines 106 to 114): every entry whose key occurs
in the filename contributes, in table order, a nidm:tag for the
dot-stripped key unless that tag is already among the path-derived tags,
followed by all attributes obtained from its uri list. -/
def fileMapAttrs (filename : PyStr) (fstypes addtypes : List PyStr) :
    List (String × String) :=
  fs_file_map.flatMap (fun p =>
    if isSubL p.1 filename then
      (if (fstypes ++ addtypes).contains (stripDots p.1) then []
       else [("nidm:tag", String.mk (stripDots p.1))])
      ++ p.2.map fattrToAttr
    else [])

/-- Model of Python string interpolation `"%s" % h` applied to an optional
digest: None prints as the string "None". -/
def optStr : Option String → String
  | none => "None"
  | some s => s

/-- Model of `create_entity(graph, fs_subject_id, filepath, hostname)`
(fs_upload_to_triplesore.py lines 78 to 116), restricted to the attribute
list of the entity it creates.  The relative path is the piece of the
filepath after the first occurrence of the subject id with leading slashes
stripped (Python `filepath.split(fs_subject_id)[1]` raises IndexError when
the subject id does not occur, modelled as none); `fstypes` are the
directory components of the relative path and `additional_types` the
dot-separated components of its last component.  The two digests are
computed by `hash_infile` with the given md5 and sha512 algorithms. -/
def create_entity_attrs (fs : FileSys) (md5a sha512a : List Nat → String)
    (fs_subject_id filepath : PyStr) (hostname : String) :
    Option (List (String × String)) :=
  match pySplit fs_subject_id filepath with
  | _ :: piece1 :: _ =>
    let filename := filenameOf filepath
    let relpath := lstripSlash piece1
    let pieces := pySplit ['/'] relpath
    let fstypes := pieces.dropLast
    let addtypes := pySplit ['.'] (pieces.getLastD [])
    let md5h := hash_infile fs md5a filepath 8192
    let shah := hash_infile fs sha512a filepath 8192
    let url := "file://" ++ hostname ++ String.mk filepath
    let url_get := "http://computor.mit.edu:10101/file?file_uri=" ++ url
    some ([("prov:label", String.mk filename),
           ("fs:relative_path", String.mk relpath),
           ("prov:location", url_get),
           ("crypto:md5", optStr md5h),
           ("crypto:sha", optStr shah)]
          ++ fstypes.map (fun k => ("nidm:tag", String.mk k))
          ++ addtypes.map (fun k => ("nidm:tag", String.mk k))
          ++ fileMapAttrs filename fstypes addtypes)
  | _ => none

/-- One tabular cell of a FreeSurfer stats report, as produced by
`read_stats` (query_convert_fs_stats.py lines 112 to 120): column header
name, field description, cell text, and declared units. -/
structure MeasureItem where
  name : String
  description : String
  value : String
  units : String
deriving DecidableEq

/-- One element of the `measures` list of `read_stats`: either a header
`# Measure` line or one row of the tabular section, both carrying the
structure name they refer to. -/
inductive Measure where
  | header (struct name description value units : String)
  | table (struct : String) (items : List MeasureItem)
deriving DecidableEq

/-- A prov.Literal built by the measure loop of `parse_stats`: either
`prov.Literal(int(v), XSD['integer'])` or `prov.Literal(float(v), XSD['float'])`,
carrying the source text of the value. -/
inductive PLit where
  | intLit (s : String)
  | floatLit (s : String)
deriving DecidableEq

/-- An attribute value of a stats entity: a qualified-name reference or a literal. -/
inductive AV where
  | uriv (s : String)
  | litv (l : PLit)
deriving DecidableEq

/-- An attribute of a stats entity: qualified name and value. -/
abbrev SAttr := String × AV

/-- The `unknown_units` set of query_convert_fs_stats.py line 168. -/
def unknown_units : List String := ["unitless", "NA"]

/-- Model of Python `'.' in s`. -/
def hasDot (s : String) : Bool := s.toList.contains '.'

/-- Value coercion for a header measure (query_convert_fs_stats.py
lines 187 to 190): integer when the declared unit is in `unknown_units`,
floating point otherwise. -/
def headerValref (units value : String) : PLit :=
  if unknown_units.contains units then .intLit value else .floatLit value

/-- Value coercion for a table cell (query_convert_fs_stats.py
lines 196 to 202): integer when the declared unit is in `unknown_units`
and the cell text has no dot, floating point otherwise. -/
def tableValref (units value : String) : PLit :=
  if unknown_units.contains units && !hasDot value then .intLit value
  else .floatLit value

/-- The struct_uri `fs[measure['structure']]` of a measure
(query_convert_fs_stats.py line 171). -/
def structUri : Measure → String
  | .header st _ _ _ _ => "fs:" ++ st
  | .table st _ => "fs:" ++ st

/-- The `obj_attr` list built for one measure by the loop of `parse_stats`
(query_convert_fs_stats.py lines 169 to 203): the anatomical reference to
the structure followed by the coerced measure values.  The side
`measure_graph` of term definitions does not feed back into the entity
attributes and is not modelled. -/
def objAttr : Measure → List SAttr
  | .header st nm _ v u =>
    [("nidm:AnatomicalAnnotation", .uriv ("fs:" ++ st)),
     ("fs:" ++ nm, .litv (headerValref u v))]
  | .table st items =>
    ("nidm:AnatomicalAnnotation", .uriv ("fs:" ++ st)) ::
      items.map (fun it => ("fs:" ++ it.name, .litv (tableValref it.units it.value)))

/-- A stats entity: its identifier (uuids modelled as the value of the
consecutive id counter at creation time), its structure uri, and its
attribute multimap in insertion order. -/
structure Ent where
  eid : Nat
  su : String
  attrs : List SAttr
deriving DecidableEq

/-- State of the measure loop of `parse_stats`: the id counter, the entities
created so far, the `struct_info` index from structure uri to entity
identifier, and the identifiers that received a hadMember edge. -/
structure PSState where
  ctr : Nat
  ents : List Ent
  sinfo : List (String × Nat)
  members : List Nat
deriving DecidableEq

/-- Lookup in the struct_info dictionary (first matching key). -/
def silookup (s : String) : List (String × Nat) → Option Nat
  | [] => none
  | (k, v) :: rest => if k == s then some v else silookup s rest

/-- One iteration of the measure loop of `parse_stats`
(query_convert_fs_stats.py lines 169 to 223): generate a fresh id; when the
structure uri is already in `struct_info` append the measure's attributes
to that entity, otherwise create a new entity with the fresh id and record
it in `struct_info`; in both cases a hadMember edge is added for the fresh
id. -/
def psStep (st : PSState) (m : Measure) : PSState :=
  let su := structUri m
  let oa := objAttr m
  match silookup su st.sinfo with
  | some eid =>
    { ctr := st.ctr + 1
      ents := st.ents.map (fun e => if e.eid == eid then { e with attrs := e.attrs ++ oa } else e)
      sinfo := st.sinfo
      members := st.members ++ [st.ctr] }
  | none =>
    { ctr := st.ctr + 1
      ents := st.ents ++ [⟨st.ctr, su, oa⟩]
      sinfo := st.sinfo ++ [(su, st.ctr)]
      members := st.members ++ [st.ctr] }

/-- The initial state of the measure loop: no entities, empty struct_info. -/
def initPS : PSState := ⟨0, [], [], []⟩

/-- Run the measure loop over a list of measures from a given state. -/
def runPS (st : PSState) (ms : List Measure) : PSState := ms.foldl psStep st

/-- The entities produced by `parse_stats` for a stats report whose
`read_stats` measures list is `ms`, in creation order. -/
def parse_stats_entities (ms : List Measure) : List Ent := (runPS initPS ms).ents

/-- The attributes that the measures referring to structure uri `s`
contribute, in processing order. -/
def gatherAttrs (s : String) (ms : List Measure) : List SAttr :=
  (ms.filter (fun m => structUri m == s)).flatMap objAttr

/-- The entities with structure uri `s`. -/
def entsFor (s : String) (es : List Ent) : List Ent :=
  es.filter (fun e => e.su == s)

mutual
/-- A json-serializable Python value, mutually with json arrays and objects
(the possible cell payloads of the fallback branch of `safe_encode`). -/
inductive JVal where
  | jnull
  | jbool (b : Bool)
  | jnum (n : Int)
  | jstr (s : String)
  | jarr (a : JArr)
  | jobj (o : JObj)

inductive JArr where
  | anil
  | acons (v : JVal) (rest : JArr)

inductive JObj where
  | onil
  | ocons (k : String) (v : JVal) (rest : JObj)
end

mutual
/-- Textual serialization of a json-serializable value, modelling
`json.dumps` (string escaping omitted: the claims only use that a textual
form exists). -/
def jdumps : JVal → String
  | .jnull => "null"
  | .jbool true => "true"
  | .jbool false => "false"
  | .jnum n => toString n
  | .jstr s => "\"" ++ s ++ "\""
  | .jarr a => "[" ++ jdumpsArr a ++ "]"
  | .jobj o => "\x7b" ++ jdumpsObj o ++ "\x7d"

def jdumpsArr : JArr → String
  | .anil => ""
  | .acons v .anil => jdumps v
  | .acons v rest => jdumps v ++ ", " ++ jdumpsArr rest

def jdumpsObj : JObj → String
  | .onil => ""
  | .ocons k v .onil => "\"" ++ k ++ "\": " ++ jdumps v
  | .ocons k v rest => "\"" ++ k ++ "\": " ++ jdumps v ++ ", " ++ jdumpsObj rest
end

/-- A Python value appearing as a csv cell, as dispatched by `safe_encode`
(scripts/csv2prov.py lines 17 to 28): None, str, int, float (abstracted by
its textual repr; float arithmetic plays no role), or any other
json-serializable value. -/
inductive PyVal where
  | vnone
  | vstr (s : String)
  | vint (n : Int)
  | vfloat (fr : String)
  | vother (j : JVal)

/-- A prov.Literal as built by `safe_encode`: lexical form and datatype. -/
structure PLiteral where
  lex : String
  dt : String
deriving DecidableEq

/-- Model of `safe_encode(x)` (scripts/csv2prov.py lines 17 to 28): None
becomes the string literal "Unknown", strings keep the string datatype,
ints the integer datatype, floats the float datatype, and every other
value is serialized with json.dumps as a string literal. -/
def safe_encode : PyVal → PLiteral
  | .vnone => ⟨"Unknown", "xsd:string"⟩
  | .vstr s => ⟨s, "xsd:string"⟩
  | .vint n => ⟨toString n, "xsd:integer"⟩
  | .vfloat fr => ⟨fr, "xsd:float"⟩
  | .vother j => ⟨jdumps j, "xsd:string"⟩

/-- Model of the column sanitization of `csv2provgraph`
(scripts/csv2prov.py line 95): `column.rstrip().replace(' ', '_').replace('/', '_')`. -/
def sanitizeCol (c : PyStr) : PyStr :=
  ((c.reverse.dropWhile Char.isWhitespace).reverse).map
    (fun ch => if ch == ' ' || ch == '/' then '_' else ch)

/-- The column uri `niiri[csv_id + '/' + sanitized]` of scripts/csv2prov.py line 95. -/
def colUri (csv_id : PyStr) (c : PyStr) : PyStr := csv_id ++ '/' :: sanitizeCol c

/-- An attribute key of a csv row entity: prov:type, prov:location, or a
column uri (keys of distinct kinds are distinct qualified names). -/
inductive RKey where
  | ptype
  | ploc
  | kcol (u : PyStr)
deriving DecidableEq

/-- An attribute value of a csv row entity. -/
inductive RVal where
  | uriv (s : String)
  | natv (n : Nat)
  | litv (l : PLiteral)

/-- Insertion into the Python attribute dict `attr` of `csv2provgraph`:
an existing key keeps its position and gets the new value, a new key is
appended. -/
def dinsert (m : List (RKey × RVal)) (k : RKey) (v : RVal) : List (RKey × RVal) :=
  if m.any (fun p => p.1 == k) then m.map (fun p => if p.1 == k then (k, v) else p)
  else m ++ [(k, v)]

/-- Model of the cell loop of `csv2provgraph`
(scripts/csv2prov.py lines 113 to 115): for each column, when the cell is
present (`np.isnan` false, modelled as some) add the safe-encoded value
under the column uri; a missing or not-a-number cell (none) adds nothing. -/
def addCells (csv_id : PyStr) : List (RKey × RVal) → List (PyStr × Option PyVal) → List (RKey × RVal)
  | attrs, [] => attrs
  | attrs, (_, none) :: rest => addCells csv_id attrs rest
  | attrs, (c, some v) :: rest =>
    addCells csv_id (dinsert attrs (RKey.kcol (colUri csv_id c)) (RVal.litv (safe_encode v))) rest

/-- The attribute multimap of the row entity for the row with 1-based
location `rc` (scripts/csv2prov.py lines 109 to 116): the csv_row type and
the location, then one attribute per present cell. -/
def rowAttrs (csv_id : PyStr) (columns : List PyStr) (rc : Nat)
    (r : List (Option PyVal)) : List (RKey × RVal) :=
  addCells csv_id [(RKey.ptype, RVal.uriv "nidm:csv_row"), (RKey.ploc, RVal.natv rc)]
    (columns.zip r)

/-- Model of the Python guard `if n_rows and row_count >= n_rows`
(scripts/csv2prov.py line 104): None and 0 are falsy. -/
def capReached (n_rows : Option Nat) (rc : Nat) : Bool :=
  match n_rows with
  | none => false
  | some k => (k != 0) && decide (k ≤ rc)

/-- The row loop of `csv2provgraph` (scripts/csv2prov.py lines 102 to 116):
one entity per data row until the row cap is reached, each row carrying its
attribute multimap. -/
def csvRowsGo (csv_id : PyStr) (columns : List PyStr) (n_rows : Option Nat) :
    List (List (Option PyVal)) → Nat → List (List (RKey × RVal))
  | [], _ => []
  | r :: rs, rc =>
    if capReached n_rows rc then []
    else rowAttrs csv_id columns (rc + 1) r :: csvRowsGo csv_id columns n_rows rs (rc + 1)

/-- The row entities (as attribute multimaps) produced by `csv2provgraph`
for a table with the given columns and rows. -/
def csvRows (csv_id : PyStr) (columns : List PyStr)
    (rows : List (List (Option PyVal))) (n_rows : Option Nat) :
    List (List (RKey × RVal)) :=
  csvRowsGo csv_id columns n_rows rows 0

/-- The attributes contributed by the present cells of a zipped
columns-and-cells list, in column order (used to characterize `addCells`
when no column uris collide). -/
def cellAttrs (csv_id : PyStr) (cs : List (PyStr × Option PyVal)) : List (RKey × RVal) :=
  cs.flatMap (fun p =>
    match p.2 with
    | none => []
    | some v => [(RKey.kcol (colUri csv_id p.1), RVal.litv (safe_encode v))])

/-- Concrete hidden file used in witness statements. -/
def wHid : FSFile := ⟨".hid".toList, "/b/bert/.hid".toList, true⟩

/-- Concrete ignore-matching file (its real path contains "tmp"). -/
def wIgn : FSFile := ⟨"a.tmp".toList, "/b/bert/a.tmp".toList, true⟩

/-- Concrete eligible file. -/
def wLab1 : FSFile := ⟨"b.label".toList, "/b/bert/b.label".toList, true⟩

/-- Concrete eligible file. -/
def wLab2 : FSFile := ⟨"c.label".toList, "/b/bert/c.label".toList, true⟩

/-- Concrete eligible file. -/
def wLab3 : FSFile := ⟨"d.label".toList, "/b/bert/d.label".toList, true⟩

/-- Concrete walk of three eligible files in two directories. -/
def wWalkCap : List (List FSFile) := [[wLab1, wLab2], [wLab3]]

/-- Concrete walk whose first file matches the ignore list. -/
def wWalkCtr : List (List FSFile) := [[wIgn, wLab1, wLab2]]

/-- A file system with no regular files. -/
def wNoFS : FileSys := fun _ => none

/-- Concrete byte content used in witness statements. -/
def wBytes : List Nat := [104, 105]

/-- A file system where every path is a regular file with content `wBytes`. -/
def wSomeFS : FileSys := fun _ => some wBytes

/-- Concrete digest algorithm: the byte count as a string. -/
def wAlgLen : List Nat → String := fun l => toString l.length

/-- Concrete file path inside subject directory bert whose filename holds
both the lh and rh tokens. -/
def w5fp : PyStr := "/b/bert/label/lh.rh.x".toList

/-- The attribute list `create_entity` builds for `w5fp`. -/
def w5attrs : List (String × String) :=
  (create_entity_attrs wNoFS wAlgLen wAlgLen "bert".toList w5fp "host").getD []

/-- Concrete measures list: the same structure X referenced once from the
header and once from the table. -/
def wMs : List Measure :=
  [Measure.header "X" "eTIV" "desc" "10" "unitless",
   Measure.table "X" [⟨"NumVert", "desc", "1234.5", "unitless"⟩]]

/-- Concrete csv id. -/
def wCsvId : PyStr := "id".toList

/-- Concrete csv columns. -/
def wCols : List PyStr := ["A".toList, "B".toList]

/-- Concrete complete csv row. -/
def wRow1 : List (Option PyVal) := [some (PyVal.vfloat "1.0"), some (PyVal.vfloat "2.0")]

/-- Concrete csv row whose second cell was read as not-a-number. -/
def wRow2 : List (Option PyVal) := [some (PyVal.vfloat "3.0"), none]

/-- Concrete csv data rows. -/
def wRows : List (List (Option PyVal)) := [wRow1, wRow2]

/-- The booleans of an eligible file: not hidden, a regular file, not ignored. -/
theorem eligible_parts {f : FSFile} (h : eligibleB f = true) :
    hiddenB f = false ∧ f.isFile = true ∧ ignoredB f = false := by
  revert h; unfold eligibleB
  cases hiddenB f <;> cases f.isFile <;> cases ignoredB f <;> simp

/-- The read loop with sufficient fuel feeds the whole byte sequence to the
digest object when the chunk length is positive. -/
theorem readLoopF_all (clen : Nat) (hc : 0 < clen) :
    ∀ (fuel : Nat) (bytes acc : List Nat), bytes.length < fuel →
      readLoopF fuel clen bytes acc = acc ++ bytes := by
  intro fuel
  induction fuel with
  | zero => intro bytes acc h; exact absurd h (by omega)
  | succ n ih =>
    intro bytes acc h
    cases bytes with
    | nil => simp [readLoopF]
    | cons b rest =>
      have hne : ((b :: rest).take clen).isEmpty = false := by
        cases clen with
        | zero => omega
        | succ m => simp [List.take]
      simp only [readLoopF, hne, Bool.false_eq_true, if_false]
      rw [ih ((b :: rest).drop clen) (acc ++ (b :: rest).take clen) (by simp at h ⊢; omega)]
      rw [List.append_assoc, List.take_append_drop]

/-- C6: for every path that does not refer to an existing regular file and
every digest algorithm, hash_infile returns the explicit no-digest value
None (and, being a total function of the file-system view, raises no
exception). -/
theorem hash_infile_missing_none (fs : FileSys) (alg : List Nat → String)
    (afile : PyStr) (chunk_len : Nat) (h : fs afile = none) :
    hash_infile fs alg afile chunk_len = none := by
  simp [hash_infile, h]

/-- Witness for C6 at a concrete missing path. -/
theorem hash_infile_missing_none_witness :
    hash_infile wNoFS wAlgLen "/no/such/file".toList 8192 = none :=
  hash_infile_missing_none wNoFS wAlgLen "/no/such/file".toList 8192 rfl

/-- C7: hash_infile is a pure function of the file's byte content: any two
paths (even across distinct file-system states) whose contents are the
identical byte sequence receive the identical digest, namely the digest of
the whole byte sequence, although it is fed in 8 KiB chunks. -/
theorem hash_infile_content_pure (fs1 fs2 : FileSys) (alg : List Nat → String)
    (p1 p2 : PyStr) (content : List Nat)
    (h1 : fs1 p1 = some content) (h2 : fs2 p2 = some content) :
    hash_infile fs1 alg p1 8192 = some (alg content) ∧
    hash_infile fs2 alg p2 8192 = some (alg content) := by
  have hr : readLoopF (content.length + 1) 8192 content [] = content := by
    simpa using readLoopF_all 8192 (by omega) (content.length + 1) content [] (by omega)
  constructor <;> simp [hash_infile, h1, h2, hr]

/-- Witness for C7 at two concrete paths with the same content. -/
theorem hash_infile_content_pure_witness :
    hash_infile wSomeFS wAlgLen "/a".toList 8192 = some (wAlgLen wBytes) ∧
    hash_infile wSomeFS wAlgLen "/b/c".toList 8192 = some (wAlgLen wBytes) :=
  hash_infile_content_pure wSomeFS wSomeFS wAlgLen "/a".toList "/b/c".toList wBytes rfl rfl

/-- Unfolding equation for the inner loop on a nonempty file list. -/
theorem processDir_cons (f : FSFile) (rest : List FSFile) (i cap : Nat) :
    processDir (f :: rest) i cap =
      if hiddenB f then processDir rest i cap
      else if cap < i + 1 then ([], i + 1)
      else if !f.isFile then processDir rest (i + 1) cap
      else if ignoredB f then processDir rest (i + 1) cap
      else ((f :: (processDir rest (i + 1) cap).1), (processDir rest (i + 1) cap).2) := rfl

/-- The item counter never decreases across the inner loop. -/
theorem processDir_mono (files : List FSFile) :
    ∀ i cap, i ≤ (processDir files i cap).2 := by
  induction files with
  | nil => intro i cap; simp [processDir]
  | cons f rest ih =>
    intro i cap
    rw [processDir_cons]
    cases h1 : hiddenB f
    · by_cases h2 : cap < i + 1
      · simp [h2]
      · cases h3 : f.isFile
        · simp only [Bool.false_eq_true, if_false, h2, Bool.not_false, if_true]
          exact le_trans (by omega) (ih (i + 1) cap)
        · cases h4 : ignoredB f
          · simp only [Bool.false_eq_true, if_false, h2, Bool.not_true]
            exact le_trans (by omega) (ih (i + 1) cap)
          · simp only [Bool.false_eq_true, if_false, h2, Bool.not_true, if_true]
            exact le_trans (by omega) (ih (i + 1) cap)
    · simp only [if_true]
      exact ih i cap

/-- Once the counter has reached the cap, the inner loop creates no entity. -/
theorem processDir_capped (files : List FSFile) :
    ∀ i cap, cap ≤ i → (processDir files i cap).1 = [] := by
  induction files with
  | nil => intro i cap _; simp [processDir]
  | cons f rest ih =>
    intro i cap h
    rw [processDir_cons]
    cases h1 : hiddenB f
    · have h2 : cap < i + 1 := by omega
      simp [h2]
    · simp only [if_true]
      exact ih i cap h

/-- Once the counter has reached the cap, the remaining walk creates no entity. -/
theorem encodeDirs_capped (ds : List (List FSFile)) :
    ∀ i cap, cap ≤ i → encodeDirs ds i cap = [] := by
  induction ds with
  | nil => intro i cap _; rfl
  | cons d ds ih =>
    intro i cap h
    simp only [encodeDirs]
    rw [processDir_capped d i cap h, List.nil_append]
    exact ih _ cap (le_trans h (processDir_mono d i cap))

/-- On a directory of eligible files the inner loop takes exactly the
remaining budget of files and advances the counter accordingly. -/
theorem processDir_eligible (files : List FSFile) :
    ∀ i cap, (∀ f ∈ files, eligibleB f = true) → i ≤ cap →
      processDir files i cap = (files.take (cap - i), min (i + files.length) (cap + 1)) := by
  induction files with
  | nil =>
    intro i cap _ hi
    simp only [processDir, List.take_nil, List.length_nil, Nat.add_zero]
    rw [Nat.min_eq_left (by omega)]
  | cons f rest ih =>
    intro i cap hall hi
    obtain ⟨e1, e2, e3⟩ := eligible_parts (hall f (by simp))
    rw [processDir_cons, e1, e2, e3]
    by_cases hc : cap < i + 1
    · have h0 : cap - i = 0 := by omega
      simp only [Bool.false_eq_true, if_false, hc, if_true, h0, List.take_zero,
        Prod.mk.injEq, List.length_cons]
      exact ⟨trivial, by omega⟩
    · simp only [Bool.false_eq_true, if_false, hc, Bool.not_true]
      rw [ih (i + 1) cap (fun g hg => hall g (by simp [hg])) (by omega)]
      obtain ⟨k, hk⟩ : ∃ k, cap - i = k + 1 := ⟨cap - i - 1, by omega⟩
      simp only [Prod.mk.injEq, List.length_cons]
      constructor
      · rw [hk, List.take_succ_cons]
        have hkk : cap - (i + 1) = k := by omega
        rw [hkk]
      · omega

/-- On a walk of eligible files the traversal takes exactly the remaining
budget of files, in walk order. -/
theorem encodeDirs_eligible (ds : List (List FSFile)) :
    ∀ i cap, (∀ f ∈ ds.flatten, eligibleB f = true) →
      encodeDirs ds i cap = ds.flatten.take (cap - i) := by
  induction ds with
  | nil => intro i cap _; simp [encodeDirs]
  | cons d ds ih =>
    intro i cap hall
    by_cases hi : i ≤ cap
    · simp only [encodeDirs]
      rw [processDir_eligible d i cap
            (fun f hf => hall f (by rw [List.flatten_cons]; exact List.mem_append_left _ hf)) hi]
      rw [ih _ cap
            (fun f hf => hall f (by rw [List.flatten_cons]; exact List.mem_append_right _ hf))]
      rw [List.flatten_cons, List.take_append_eq_append_take]
      congr 2
      omega
    · rw [encodeDirs_capped _ i cap (by omega)]
      have h0 : cap - i = 0 := by omega
      simp [h0]

/-- C1: on a tree whose files are all non-hidden, non-ignored regular files,
with a cap K smaller than the file count N, encode_fs_directory creates
exactly the first K file entities in traversal order and links them; the
remaining N - K files are absent from the graph. -/
theorem encode_fs_directory_cap (walk : List (List FSFile)) (K : Nat)
    (hall : ∀ f ∈ walk.flatten, eligibleB f = true)
    (hnd : walk.flatten.Nodup) (hK : K < walk.flatten.length) :
    encode_fs_directory walk K = walk.flatten.take K ∧
    (encode_fs_directory walk K).length = K ∧
    ∀ f ∈ walk.flatten.drop K, f ∉ encode_fs_directory walk K := by
  have he : encode_fs_directory walk K = walk.flatten.take K := by
    unfold encode_fs_directory
    rw [encodeDirs_eligible walk 0 K hall, Nat.sub_zero]
  refine ⟨he, ?_, ?_⟩
  · rw [he, List.length_take]; omega
  · intro f hf hmem
    rw [he] at hmem
    exact List.disjoint_take_drop hnd (le_refl K) hmem hf

/-- Witness for C1: three eligible files, cap two. -/
theorem encode_fs_directory_cap_witness :
    encode_fs_directory wWalkCap 2 = wWalkCap.flatten.take 2 ∧
    (encode_fs_directory wWalkCap 2).length = 2 :=
  ⟨(encode_fs_directory_cap wWalkCap 2 (by decide) (by decide) (by decide)).1,
   (encode_fs_directory_cap wWalkCap 2 (by decide) (by decide) (by decide)).2.1⟩

/-- Every file the inner loop encodes is eligible. -/
theorem mem_processDir (files : List FSFile) :
    ∀ i cap f, f ∈ (processDir files i cap).1 → eligibleB f = true := by
  induction files with
  | nil => intro i cap f h; simp [processDir] at h
  | cons g rest ih =>
    intro i cap f h
    rw [processDir_cons] at h
    cases h1 : hiddenB g with
    | true => rw [h1, if_pos rfl] at h; exact ih i cap f h
    | false =>
      rw [h1] at h
      simp only [Bool.false_eq_true, if_false] at h
      by_cases h2 : cap < i + 1
      · rw [if_pos h2] at h; simp at h
      · rw [if_neg h2] at h
        cases h3 : g.isFile with
        | false =>
          rw [h3] at h
          simp only [Bool.not_false, if_true] at h
          exact ih (i + 1) cap f h
        | true =>
          rw [h3] at h
          simp only [Bool.not_true, Bool.false_eq_true, if_false] at h
          cases h4 : ignoredB g with
          | true => rw [h4, if_pos rfl] at h; exact ih (i + 1) cap f h
          | false =>
            rw [h4] at h
            simp only [Bool.false_eq_true, if_false] at h
            rcases List.mem_cons.mp h with rfl | hm
            · unfold eligibleB
              rw [h1, h3, h4]
              rfl
            · exact ih (i + 1) cap f hm

/-- Every file the whole traversal encodes is eligible. -/
theorem mem_encodeDirs (ds : List (List FSFile)) :
    ∀ i cap f, f ∈ encodeDirs ds i cap → eligibleB f = true := by
  induction ds with
  | nil => intro i cap f h; simp [encodeDirs] at h
  | cons d ds ih =>
    intro i cap f h
    simp only [encodeDirs] at h
    rcases List.mem_append.mp h with h1 | h2
    · exact mem_processDir d i cap f h1
    · exact ih _ cap f h2

/-- C2: a file whose full real path contains an ignore-list substring never
gets an entity or a hadMember edge, whatever the traversal cap is. -/
theorem encode_fs_directory_ignores (walk : List (List FSFile)) (cap : Nat)
    (f : FSFile) (h : ∃ key ∈ ignore_list, isSubL key f.rpath = true) :
    f ∉ encode_fs_directory walk cap := by
  intro hmem
  have he := mem_encodeDirs walk 0 cap f hmem
  have hig : ignoredB f = true := by
    unfold ignoredB
    rw [List.any_eq_true]
    obtain ⟨key, hk, hs⟩ := h
    exact ⟨key, hk, hs⟩
  have := (eligible_parts he).2.2
  rw [this] at hig
  exact Bool.false_ne_true hig

/-- Witness for C2: the tmp-matching file of the concrete walk. -/
theorem encode_fs_directory_ignores_witness :
    wIgn ∉ encode_fs_directory wWalkCtr 2 :=
  encode_fs_directory_ignores wWalkCtr 2 wIgn ⟨"tmp".toList, by decide, by decide⟩

/-- C10: a hidden file does not advance the item counter, while a skipped
ignore-matching or non-regular file does; consequently (concrete instance)
the number of entities can be strictly below the cap while an eligible file
remains unencoded. -/
theorem encode_fs_directory_counter :
    (∀ (f : FSFile) (rest : List FSFile) (i cap : Nat), hiddenB f = true →
        processDir (f :: rest) i cap = processDir rest i cap) ∧
    (∀ (f : FSFile) (rest : List FSFile) (i cap : Nat), hiddenB f = false →
        (f.isFile = false ∨ ignoredB f = true) → i + 1 ≤ cap →
        processDir (f :: rest) i cap = processDir rest (i + 1) cap) ∧
    (encode_fs_directory wWalkCtr 2 = [wLab1] ∧
     (encode_fs_directory wWalkCtr 2).length < 2 ∧
     eligibleB wLab2 = true ∧ wLab2 ∈ wWalkCtr.flatten ∧
     wLab2 ∉ encode_fs_directory wWalkCtr 2) := by
  refine ⟨?_, ?_, by decide⟩
  · intro f rest i cap h
    simp [processDir, h]
  · intro f rest i cap h1 h2 h3
    have hc : ¬(cap < i + 1) := by omega
    rcases h2 with h2 | h2
    · simp [processDir, h1, hc, h2]
    · cases hf : f.isFile
      · simp [processDir, h1, hc, hf]
      · simp [processDir, h1, hc, hf, h2]

/-- Witness for C10: a hidden file is free, an ignore-matching file costs
one counter step. -/
theorem encode_fs_directory_counter_witness :
    processDir [wHid, wLab1] 0 5 = processDir [wLab1] 0 5 ∧
    processDir [wIgn, wLab1] 0 5 = processDir [wLab1] 1 5 :=
  ⟨encode_fs_directory_counter.1 wHid [wLab1] 0 5 (by decide),
   encode_fs_directory_counter.2.1 wIgn [wLab1] 0 5 (by decide) (Or.inr (by decide)) (by decide)⟩

/-- C5: every fs_file_map entry whose key occurs in the filename contributes
all of its uri-derived attributes to the entity; matching is additive over
the whole table, so a filename containing lh always receives the
left-hemisphere annotation, and a filename containing both lh and rh
receives both hemisphere annotations. -/
theorem create_entity_additive_tags (fs : FileSys) (md5a sha512a : List Nat → String)
    (sid fp : PyStr) (host : String) (attrs : List (String × String))
    (h : create_entity_attrs fs md5a sha512a sid fp host = some attrs) :
    (∀ key uris, (key, uris) ∈ fs_file_map → isSubL key (filenameOf fp) = true →
       ∀ fa ∈ uris, fattrToAttr fa ∈ attrs) ∧
    (isSubL "lh".toList (filenameOf fp) = true →
       ("nidm:AnatomicalAnnotation", "obo:UBERON_0002812") ∈ attrs) ∧
    (isSubL "lh".toList (filenameOf fp) = true → isSubL "rh".toList (filenameOf fp) = true →
       ("nidm:AnatomicalAnnotation", "obo:UBERON_0002812") ∈ attrs ∧
       ("nidm:AnatomicalAnnotation", "obo:UBERON_0002813") ∈ attrs) := by
  have hgen : ∀ key uris, (key, uris) ∈ fs_file_map → isSubL key (filenameOf fp) = true →
      ∀ fa ∈ uris, fattrToAttr fa ∈ attrs := by
    intro key uris hmem hsub fa hfa
    unfold create_entity_attrs at h
    rcases hsp : pySplit sid fp with _ | ⟨p0, ps⟩
    · rw [hsp] at h; exact absurd h (by simp)
    · rcases ps with _ | ⟨p1, rest⟩
      · rw [hsp] at h; exact absurd h (by simp)
      · rw [hsp] at h
        simp only [Option.some.injEq] at h
        rw [← h]
        apply List.mem_append_right
        unfold fileMapAttrs
        apply List.mem_flatMap.mpr
        refine ⟨(key, uris), hmem, ?_⟩
        simp only [hsub, if_true]
        apply List.mem_append_right
        exact List.mem_map.mpr ⟨fa, hfa, rfl⟩
  refine ⟨hgen, ?_, ?_⟩
  · intro hlh
    have := hgen "lh".toList [.pairAV "nidm:AnatomicalAnnotation" "obo:UBERON_0002812"]
      (by decide) hlh (.pairAV "nidm:AnatomicalAnnotation" "obo:UBERON_0002812") (by decide)
    simpa [fattrToAttr] using this
  · intro hlh hrh
    constructor
    · have := hgen "lh".toList [.pairAV "nidm:AnatomicalAnnotation" "obo:UBERON_0002812"]
        (by decide) hlh (.pairAV "nidm:AnatomicalAnnotation" "obo:UBERON_0002812") (by decide)
      simpa [fattrToAttr] using this
    · have := hgen "rh".toList [.pairAV "nidm:AnatomicalAnnotation" "obo:UBERON_0002813"]
        (by decide) hrh (.pairAV "nidm:AnatomicalAnnotation" "obo:UBERON_0002813") (by decide)
      simpa [fattrToAttr] using this

/-- Witness for C5 at a filename holding both the lh and rh tokens. -/
theorem create_entity_additive_tags_witness :
    ("nidm:AnatomicalAnnotation", "obo:UBERON_0002812") ∈ w5attrs ∧
    ("nidm:AnatomicalAnnotation", "obo:UBERON_0002813") ∈ w5attrs :=
  (create_entity_additive_tags wNoFS wAlgLen wAlgLen "bert".toList w5fp "host" w5attrs
    (by decide)).2.2 (by decide) (by decide)

/-- silookup on the pair view of an entity list agrees with entity search. -/
theorem silookup_map (es : List Ent) (s : String) :
    silookup s (es.map (fun e => (e.su, e.eid))) =
      (es.find? (fun e => e.su == s)).map (fun e => e.eid) := by
  induction es with
  | nil => rfl
  | cons a es ih =>
    simp only [List.map_cons, silookup, List.find?_cons]
    by_cases h : (a.su == s) = true
    · rw [h]; simp
    · rw [show (a.su == s) = false from by revert h; cases a.su == s <;> simp]
      simpa using ih

/-- Invariant of the measure loop: struct_info is exactly the pair view of
the entity list, structure uris and identifiers are duplicate free, and all
identifiers are below the counter. -/
structure InvPS (st : PSState) : Prop where
  hsi : st.sinfo = st.ents.map (fun e => (e.su, e.eid))
  hsu : (st.ents.map (fun e => e.su)).Nodup
  hid : (st.ents.map (fun e => e.eid)).Nodup
  hlt : ∀ e ∈ st.ents, e.eid < st.ctr

/-- The initial state satisfies the invariant. -/
theorem initPS_inv : InvPS initPS :=
  ⟨rfl, List.nodup_nil, List.nodup_nil, fun e he => absurd he (List.not_mem_nil e)⟩

/-- The merged-attribute update does not change the structure uri. -/
theorem upd_su (e : Ent) (eid : Nat) (oa : List SAttr) :
    (if e.eid == eid then { e with attrs := e.attrs ++ oa } else e).su = e.su := by
  split <;> rfl

/-- The merged-attribute update does not change the identifier. -/
theorem upd_eid (e : Ent) (eid : Nat) (oa : List SAttr) :
    (if e.eid == eid then { e with attrs := e.attrs ++ oa } else e).eid = e.eid := by
  split <;> rfl

/-- psStep when the structure uri is not yet indexed. -/
theorem psStep_none {st : PSState} {m : Measure}
    (hn : silookup (structUri m) st.sinfo = none) :
    psStep st m =
      { ctr := st.ctr + 1
        ents := st.ents ++ [⟨st.ctr, structUri m, objAttr m⟩]
        sinfo := st.sinfo ++ [(structUri m, st.ctr)]
        members := st.members ++ [st.ctr] } := by
  simp only [psStep, hn]

/-- psStep when the structure uri is already indexed. -/
theorem psStep_some {st : PSState} {m : Measure} {eid : Nat}
    (hs : silookup (structUri m) st.sinfo = some eid) :
    psStep st m =
      { ctr := st.ctr + 1
        ents := st.ents.map (fun e => if e.eid == eid then { e with attrs := e.attrs ++ objAttr m } else e)
        sinfo := st.sinfo
        members := st.members ++ [st.ctr] } := by
  simp only [psStep, hs]

/-- Filtering by structure uri commutes with the merged-attribute update. -/
theorem entsFor_map_upd (es : List Ent) (eid : Nat) (oa : List SAttr) (s : String) :
    entsFor s (es.map (fun e => if e.eid == eid then { e with attrs := e.attrs ++ oa } else e)) =
      (entsFor s es).map (fun e => if e.eid == eid then { e with attrs := e.attrs ++ oa } else e) := by
  induction es with
  | nil => rfl
  | cons a es ih =>
    simp only [entsFor, List.map_cons, List.filter_cons, upd_su]
    by_cases hs : (a.su == s) = true
    · simp only [hs, if_true, List.map_cons]
      exact congrArg _ ih
    · rw [show (a.su == s) = false from by revert hs; cases a.su == s <;> simp]
      exact ih

/-- With duplicate-free structure uris, the entity carrying uri s is the
whole filter. -/
theorem entsFor_single {es : List Ent} (hnd : (es.map (fun e => e.su)).Nodup)
    {e : Ent} (he : e ∈ es) {s : String} (hs : e.su = s) : entsFor s es = [e] := by
  induction es with
  | nil => cases he
  | cons a es ih =>
    have hna : a.su ∉ es.map (fun e => e.su) := (List.nodup_cons.mp hnd).1
    rcases List.mem_cons.mp he with rfl | hm
    · unfold entsFor
      rw [List.filter_cons, if_pos (by simp [hs])]
      have hrest : es.filter (fun x => x.su == s) = [] := by
        rw [List.filter_eq_nil_iff]
        intro x hx hxs
        exact hna (by rw [hs, ← eq_of_beq hxs]; exact List.mem_map.mpr ⟨x, hx, rfl⟩)
      rw [hrest]
    · have hanot : (a.su == s) = false := by
        refine beq_eq_false_iff_ne.mpr ?_
        intro heq
        exact hna (by rw [heq, ← hs]; exact List.mem_map.mpr ⟨e, hm, rfl⟩)
      unfold entsFor
      rw [List.filter_cons, if_neg (by simp [hanot])]
      exact ih (List.nodup_cons.mp hnd).2 hm

/-- With duplicate-free structure uris there is at most one entity per uri. -/
theorem entsFor_len_le_one (es : List Ent)
    (hnd : (es.map (fun e => e.su)).Nodup) (s : String) :
    (entsFor s es).length ≤ 1 := by
  induction es with
  | nil => simp [entsFor]
  | cons a es ih =>
    have hna : a.su ∉ es.map (fun e => e.su) := (List.nodup_cons.mp hnd).1
    unfold entsFor
    rw [List.filter_cons]
    by_cases hs : (a.su == s) = true
    · rw [if_pos hs]
      have hrest : es.filter (fun x => x.su == s) = [] := by
        rw [List.filter_eq_nil_iff]
        intro x hx hxs
        exact hna (by rw [eq_of_beq hs, ← eq_of_beq hxs]; exact List.mem_map.mpr ⟨x, hx, rfl⟩)
      rw [hrest]
      simp
    · rw [if_neg hs]
      exact ih (List.nodup_cons.mp hnd).2

/-- psStep preserves the invariant. -/
theorem psStep_inv {st : PSState} (h : InvPS st) (m : Measure) : InvPS (psStep st m) := by
  cases hfind : st.ents.find? (fun e => e.su == structUri m) with
  | none =>
    have hn : silookup (structUri m) st.sinfo = none := by
      rw [h.hsi, silookup_map, hfind]; rfl
    have hfresh : ∀ e ∈ st.ents, e.su ≠ structUri m := by
      intro e he
      have hb : (e.su == structUri m) = false := by
        have hne := List.find?_eq_none.mp hfind e he
        revert hne; cases e.su == structUri m <;> simp
      exact beq_eq_false_iff_ne.mp hb
    rw [psStep_none hn]
    refine ⟨?_, ?_, ?_, ?_⟩
    · simp only [List.map_append, h.hsi, List.map_cons, List.map_nil]
    · simp only [List.map_append, List.map_cons, List.map_nil, List.nodup_append]
      refine ⟨h.hsu, List.nodup_singleton _, ?_⟩
      intro x hx hx2
      rcases List.mem_map.mp hx with ⟨e, he, rfl⟩
      exact hfresh e he (List.mem_singleton.mp hx2)
    · simp only [List.map_append, List.map_cons, List.map_nil, List.nodup_append]
      refine ⟨h.hid, List.nodup_singleton _, ?_⟩
      intro x hx hx2
      rcases List.mem_map.mp hx with ⟨e, he, rfl⟩
      have := h.hlt e he
      have hx3 : e.eid = st.ctr := by simpa using hx2
      omega
    · dsimp only
      intro e he
      rcases List.mem_append.mp he with h1 | h2
      · have := h.hlt e h1
        omega
      · rcases List.mem_singleton.mp h2 with rfl
        exact Nat.lt_succ_self st.ctr
  | some e0 =>
    have hs : silookup (structUri m) st.sinfo = some e0.eid := by
      rw [h.hsi, silookup_map, hfind]; rfl
    rw [psStep_some hs]
    have hmap_su : (st.ents.map (fun e => if e.eid == e0.eid then { e with attrs := e.attrs ++ objAttr m } else e)).map (fun e => e.su) = st.ents.map (fun e => e.su) := by
      rw [List.map_map]
      exact List.map_congr_left (fun e _ => upd_su e e0.eid (objAttr m))
    have hmap_eid : (st.ents.map (fun e => if e.eid == e0.eid then { e with attrs := e.attrs ++ objAttr m } else e)).map (fun e => e.eid) = st.ents.map (fun e => e.eid) := by
      rw [List.map_map]
      exact List.map_congr_left (fun e _ => upd_eid e e0.eid (objAttr m))
    have hmap_pair : (st.ents.map (fun e => if e.eid == e0.eid then { e with attrs := e.attrs ++ objAttr m } else e)).map (fun e => (e.su, e.eid)) = st.ents.map (fun e => (e.su, e.eid)) := by
      rw [List.map_map]
      refine List.map_congr_left (fun e _ => ?_)
      simp only [Function.comp]
      rw [upd_su, upd_eid]
    refine ⟨?_, ?_, ?_, ?_⟩
    · rw [hmap_pair, h.hsi]
    · rw [hmap_su]; exact h.hsu
    · rw [hmap_eid]; exact h.hid
    · dsimp only
      intro e he
      rcases List.mem_map.mp he with ⟨e1, he1, rfl⟩
      have := h.hlt e1 he1
      rw [upd_eid]
      omega

/-- A found element satisfies the search predicate (specialization of the
library lemma with a fixed expected type). -/
theorem findq_pred {α : Type} {p : α → Bool} {l : List α} {a : α}
    (h : l.find? p = some a) : p a = true :=
  List.find?_some h

/-- Effect of one measure on the attributes gathered under a structure uri:
the measure's obj_attr is appended exactly when its structure uri matches. -/
theorem psStep_attrs {st : PSState} (h : InvPS st) (m : Measure) (s : String) :
    (entsFor s (psStep st m).ents).flatMap Ent.attrs =
      (entsFor s st.ents).flatMap Ent.attrs ++
        (if structUri m == s then objAttr m else []) := by
  cases hfind : st.ents.find? (fun e => e.su == structUri m) with
  | none =>
    have hn : silookup (structUri m) st.sinfo = none := by
      rw [h.hsi, silookup_map, hfind]; rfl
    rw [psStep_none hn]
    dsimp only
    unfold entsFor
    rw [List.filter_append, List.flatMap_append]
    congr 1
    rw [List.filter_cons, List.filter_nil]
    by_cases hsm : (structUri m == s) = true
    · rw [if_pos (by simpa using hsm), if_pos hsm]
      simp
    · rw [if_neg (by simpa using hsm), if_neg (by simpa using hsm)]
      simp
  | some e0 =>
    have hpe := findq_pred hfind
    have hs0 : e0.su = structUri m := eq_of_beq (by simpa using hpe)
    have he0 : e0 ∈ st.ents := List.mem_of_find?_eq_some hfind
    have hsl : silookup (structUri m) st.sinfo = some e0.eid := by
      rw [h.hsi, silookup_map, hfind]; rfl
    rw [psStep_some hsl]
    dsimp only
    rw [entsFor_map_upd]
    by_cases hsm : (structUri m == s) = true
    · have hseq : structUri m = s := eq_of_beq hsm
      have h1 : entsFor s st.ents = [e0] := entsFor_single h.hsu he0 (hs0.trans hseq)
      rw [h1]
      simp only [List.map_cons, List.map_nil, beq_self_eq_true, if_true, hsm]
      simp
    · have hid : (entsFor s st.ents).map
          (fun e => if e.eid == e0.eid then { e with attrs := e.attrs ++ objAttr m } else e) =
          entsFor s st.ents := by
        have : ∀ e ∈ entsFor s st.ents,
            (if e.eid == e0.eid then { e with attrs := e.attrs ++ objAttr m } else e) = e := by
          intro e he
          have hesu : e.su = s := by
            have := List.of_mem_filter he
            exact eq_of_beq this
          have hne : (e.eid == e0.eid) = false := by
            refine beq_eq_false_iff_ne.mpr ?_
            intro heq
            have : e = e0 := List.inj_on_of_nodup_map h.hid (List.mem_of_mem_filter he) he0 heq
            rw [this] at hesu
            rw [hesu] at hs0
            exact absurd (beq_iff_eq.mpr hs0.symm) (by simpa using hsm)
          rw [hne]
          simp
        calc (entsFor s st.ents).map _ = (entsFor s st.ents).map id := List.map_congr_left this
        _ = entsFor s st.ents := List.map_id _
      rw [hid]
      rw [if_neg (by simpa using hsm)]
      simp

/-- Effect of one measure on the set of structure uris present. -/
theorem psStep_sumem {st : PSState} (h : InvPS st) (m : Measure) (s : String) :
    (s ∈ (psStep st m).ents.map (fun e => e.su) ↔
      s ∈ st.ents.map (fun e => e.su) ∨ s = structUri m) := by
  cases hfind : st.ents.find? (fun e => e.su == structUri m) with
  | none =>
    have hn : silookup (structUri m) st.sinfo = none := by
      rw [h.hsi, silookup_map, hfind]; rfl
    rw [psStep_none hn]
    dsimp only
    rw [List.map_append]
    simp [List.mem_append]
  | some e0 =>
    have hpe := findq_pred hfind
    have hs0 : e0.su = structUri m := eq_of_beq (by simpa using hpe)
    have he0 : e0 ∈ st.ents := List.mem_of_find?_eq_some hfind
    have hsl : silookup (structUri m) st.sinfo = some e0.eid := by
      rw [h.hsi, silookup_map, hfind]; rfl
    rw [psStep_some hsl]
    dsimp only
    have hmap_su : (st.ents.map (fun e => if e.eid == e0.eid then { e with attrs := e.attrs ++ objAttr m } else e)).map (fun e => e.su) = st.ents.map (fun e => e.su) := by
      rw [List.map_map]
      exact List.map_congr_left (fun e _ => upd_su e e0.eid (objAttr m))
    rw [hmap_su]
    constructor
    · exact Or.inl
    · rintro (hs | rfl)
      · exact hs
      · exact List.mem_map.mpr ⟨e0, he0, hs0⟩

/-- Splitting the gathered attributes at the first measure. -/
theorem gatherAttrs_cons (s : String) (m : Measure) (ms : List Measure) :
    gatherAttrs s (m :: ms) =
      (if structUri m == s then objAttr m else []) ++ gatherAttrs s ms := by
  unfold gatherAttrs
  rw [List.filter_cons]
  by_cases hp : (structUri m == s) = true
  · rw [if_pos hp, if_pos hp]
    simp
  · rw [if_neg (by simpa using hp), if_neg (by simpa using hp)]
    simp

/-- Running the measure loop preserves the invariant. -/
theorem runPS_inv (ms : List Measure) : ∀ st, InvPS st → InvPS (runPS st ms) := by
  induction ms with
  | nil => intro st h; exact h
  | cons m ms ih => intro st h; exact ih _ (psStep_inv h m)

/-- Running the measure loop appends, per structure uri, exactly the
attributes of the measures that refer to it. -/
theorem runPS_attrs (s : String) (ms : List Measure) : ∀ st, InvPS st →
    (entsFor s (runPS st ms).ents).flatMap Ent.attrs =
      (entsFor s st.ents).flatMap Ent.attrs ++ gatherAttrs s ms := by
  induction ms with
  | nil => intro st _; simp [runPS, gatherAttrs]
  | cons m ms ih =>
    intro st h
    show (entsFor s (runPS (psStep st m) ms).ents).flatMap Ent.attrs = _
    rw [ih _ (psStep_inv h m), psStep_attrs h m s, gatherAttrs_cons, List.append_assoc]

/-- The structure uris present after the loop are the initial ones plus
those referred to by the measures. -/
theorem runPS_sumem (s : String) (ms : List Measure) : ∀ st, InvPS st →
    (s ∈ (runPS st ms).ents.map (fun e => e.su) ↔
      s ∈ st.ents.map (fun e => e.su) ∨ s ∈ ms.map structUri) := by
  induction ms with
  | nil => intro st _; simp [runPS]
  | cons m ms ih =>
    intro st h
    show s ∈ (runPS (psStep st m) ms).ents.map (fun e => e.su) ↔ _
    rw [ih _ (psStep_inv h m), psStep_sumem h m s]
    simp only [List.map_cons, List.mem_cons]
    tauto

/-- C3: when a structure name is referenced by several measures (for example
once from the header and once from the table), exactly one entity carries
that structure uri and its attribute multimap is the concatenation, in
processing order, of the attributes of all measures referring to it. -/
theorem parse_stats_merges_structures (ms : List Measure) (s : String)
    (h : s ∈ ms.map structUri) :
    ∃ e, entsFor s (parse_stats_entities ms) = [e] ∧ e.su = s ∧
         e.attrs = gatherAttrs s ms := by
  have hinv := runPS_inv ms initPS initPS_inv
  have hmem : s ∈ (runPS initPS ms).ents.map (fun e => e.su) := by
    rw [runPS_sumem s ms initPS initPS_inv]
    exact Or.inr h
  obtain ⟨e, he, hsu⟩ := List.mem_map.mp hmem
  have hone : entsFor s (parse_stats_entities ms) = [e] :=
    entsFor_single hinv.hsu he hsu
  refine ⟨e, hone, hsu, ?_⟩
  have hattrs := runPS_attrs s ms initPS initPS_inv
  rw [show parse_stats_entities ms = (runPS initPS ms).ents from rfl] at hone
  rw [hone] at hattrs
  simpa [entsFor, initPS] using hattrs

/-- Witness for C3: structure X referenced from header and table. -/
theorem parse_stats_merges_structures_witness :
    ∃ e, entsFor "fs:X" (parse_stats_entities wMs) = [e] ∧ e.su = "fs:X" ∧
         e.attrs = gatherAttrs "fs:X" wMs :=
  parse_stats_merges_structures wMs "fs:X" (by decide)

/-- C4 counterexample: a table cell with declared unit in the unitless set
but a dot in its text is coerced to a floating-point literal, not to an
integer literal as the claim states. -/
theorem parse_stats_coercion_counterexample :
    parse_stats_entities
        [Measure.table "X" [⟨"NumVert", "Number of Vertices", "1234.5", "unitless"⟩]] =
      [⟨0, "fs:X", [("nidm:AnatomicalAnnotation", AV.uriv "fs:X"),
                    ("fs:NumVert", AV.litv (PLit.floatLit "1234.5"))]⟩] ∧
    PLit.floatLit "1234.5" ≠ PLit.intLit "1234.5" := by
  exact ⟨by decide, by decide⟩

/-- C4 as amended: every literal attribute produced by parse_stats comes
from a header measure, coerced to integer exactly when its unit is in the
unitless set, or from a table cell, coerced to integer exactly when its
unit is in the unitless set and its text has no dot; all other values are
coerced to floating point. -/
theorem parse_stats_value_coercion (ms : List Measure) (s nm : String) (l : PLit)
    (h : (nm, AV.litv l) ∈ (entsFor s (parse_stats_entities ms)).flatMap Ent.attrs) :
    (∃ st n d v u, Measure.header st n d v u ∈ ms ∧ nm = "fs:" ++ n ∧
       l = (if unknown_units.contains u then PLit.intLit v else PLit.floatLit v)) ∨
    (∃ st items it, Measure.table st items ∈ ms ∧ it ∈ items ∧ nm = "fs:" ++ it.name ∧
       l = (if unknown_units.contains it.units && !hasDot it.value then PLit.intLit it.value
            else PLit.floatLit it.value)) := by
  rw [show parse_stats_entities ms = (runPS initPS ms).ents from rfl] at h
  rw [runPS_attrs s ms initPS initPS_inv] at h
  simp only [entsFor, initPS, List.filter_nil, List.flatMap_nil, List.nil_append] at h
  unfold gatherAttrs at h
  obtain ⟨m, hm, hattr⟩ := List.mem_flatMap.mp h
  have hm2 : m ∈ ms := List.mem_of_mem_filter hm
  cases m with
  | header st n d v u =>
    left
    simp only [objAttr] at hattr
    rcases List.mem_cons.mp hattr with heq | hattr2
    · exact absurd heq (by simp)
    · rcases List.mem_singleton.mp hattr2 with heq
      have h1 : nm = "fs:" ++ n := congrArg Prod.fst heq
      have h2 : AV.litv l = AV.litv (headerValref u v) := congrArg Prod.snd heq
      refine ⟨st, n, d, v, u, hm2, h1, ?_⟩
      have h3 : l = headerValref u v := by
        cases h2; rfl
      rw [h3]
      unfold headerValref
      rfl
  | table st items =>
    right
    simp only [objAttr] at hattr
    rcases List.mem_cons.mp hattr with heq | hattr2
    · exact absurd heq (by simp)
    · obtain ⟨it, hit, heq⟩ := List.mem_map.mp hattr2
      have h1 : nm = "fs:" ++ it.name := (congrArg Prod.fst heq).symm
      have h2 : AV.litv (tableValref it.units it.value) = AV.litv l := congrArg Prod.snd heq
      refine ⟨st, items, it, hm2, hit, h1, ?_⟩
      have h3 : l = tableValref it.units it.value := by
        cases h2; rfl
      rw [h3]
      unfold tableValref
      rfl

/-- Witness for the amended C4 at the header measure of the concrete report. -/
theorem parse_stats_value_coercion_witness :
    (∃ st n d v u, Measure.header st n d v u ∈ wMs ∧ "fs:eTIV" = "fs:" ++ n ∧
       PLit.intLit "10" = (if unknown_units.contains u then PLit.intLit v else PLit.floatLit v)) ∨
    (∃ st items it, Measure.table st items ∈ wMs ∧ it ∈ items ∧ "fs:eTIV" = "fs:" ++ it.name ∧
       PLit.intLit "10" = (if unknown_units.contains it.units && !hasDot it.value then PLit.intLit it.value
            else PLit.floatLit it.value)) :=
  parse_stats_value_coercion wMs "fs:X" "fs:eTIV" (PLit.intLit "10") (by decide)

/-- Inserting a key not present in the attribute dict appends it. -/
theorem dinsert_fresh (m : List (RKey × RVal)) (k : RKey) (v : RVal)
    (h : ∀ p ∈ m, p.1 ≠ k) : dinsert m k v = m ++ [(k, v)] := by
  have hany : m.any (fun p => p.1 == k) = false := by
    rw [List.any_eq_false]
    intro p hp hb
    exact h p hp (eq_of_beq hb)
  simp [dinsert, hany]

/-- The cell loop ignores an absent cell. -/
theorem cellAttrs_cons_none (csv_id c : PyStr) (rest : List (PyStr × Option PyVal)) :
    cellAttrs csv_id ((c, none) :: rest) = cellAttrs csv_id rest := rfl

/-- The cell loop prepends one attribute for a present cell. -/
theorem cellAttrs_cons_some (csv_id c : PyStr) (x : PyVal)
    (rest : List (PyStr × Option PyVal)) :
    cellAttrs csv_id ((c, some x) :: rest) =
      (RKey.kcol (colUri csv_id c), RVal.litv (safe_encode x)) :: cellAttrs csv_id rest := rfl

/-- When no cell's column uri collides with an existing attribute key and
the column uris are duplicate free, the cell loop appends one attribute per
present cell, in column order. -/
theorem addCells_eq (csv_id : PyStr) :
    ∀ (cs : List (PyStr × Option PyVal)) (attrs : List (RKey × RVal)),
      (∀ p ∈ cs, ∀ q ∈ attrs, q.1 ≠ RKey.kcol (colUri csv_id p.1)) →
      (cs.map (fun p => colUri csv_id p.1)).Nodup →
      addCells csv_id attrs cs = attrs ++ cellAttrs csv_id cs := by
  intro cs
  induction cs with
  | nil => intro attrs _ _; simp [addCells, cellAttrs]
  | cons p rest ih =>
    intro attrs hfresh hnd
    obtain ⟨hnotin0, htail⟩ := List.nodup_cons.mp hnd
    rcases p with ⟨c, v⟩
    have hnotin : colUri csv_id c ∉ rest.map (fun p => colUri csv_id p.1) := hnotin0
    cases v with
    | none =>
      show addCells csv_id attrs rest = _
      rw [ih attrs (fun q hq => hfresh q (by simp [hq])) htail, cellAttrs_cons_none]
    | some x =>
      show addCells csv_id
          (dinsert attrs (RKey.kcol (colUri csv_id c)) (RVal.litv (safe_encode x))) rest = _
      rw [dinsert_fresh attrs _ _ (fun q hq hq1 =>
        hfresh (c, some x) (by simp) q hq hq1)]
      rw [ih (attrs ++ [(RKey.kcol (colUri csv_id c), RVal.litv (safe_encode x))]) ?_ htail]
      · rw [List.append_assoc, cellAttrs_cons_some]
        rfl
      · intro q hq r hr
        rcases List.mem_append.mp hr with hr1 | hr2
        · exact hfresh q (by simp [hq]) r hr1
        · rcases List.mem_singleton.mp hr2 with rfl
          intro heq
          simp only at heq
          have hcu : colUri csv_id c = colUri csv_id q.1 := by simpa using heq
          exact hnotin (hcu ▸ List.mem_map.mpr ⟨q, hq, rfl⟩)

/-- A key matching no cell's column uri is counted zero times among the
cell attributes. -/
theorem cellAttrs_countP_zero (csv_id : PyStr) (u : PyStr) :
    ∀ cs : List (PyStr × Option PyVal), (∀ p ∈ cs, colUri csv_id p.1 ≠ u) →
      (cellAttrs csv_id cs).countP (fun a => a.1 == RKey.kcol u) = 0 := by
  intro cs
  induction cs with
  | nil => intro _; rfl
  | cons p rest ih =>
    intro hne
    rcases p with ⟨c, v⟩
    have hrest := ih (fun q hq => hne q (by simp [hq]))
    cases v with
    | none =>
      rw [cellAttrs_cons_none]
      exact hrest
    | some x =>
      have hb : ((RKey.kcol (colUri csv_id c) : RKey) == RKey.kcol u) = false := by
        refine beq_eq_false_iff_ne.mpr ?_
        intro heq
        exact hne (c, some x) (by simp) (by simpa using heq)
      rw [cellAttrs_cons_some, List.countP_cons, hrest]
      simp [hb]

/-- The cell attributes hold the key of column j exactly once when its cell
is present and zero times when it is absent, provided the column uris are
duplicate free. -/
theorem cellAttrs_countP (csv_id : PyStr) :
    ∀ (cs : List (PyStr × Option PyVal)) (j : Nat) (hj : j < cs.length),
      (cs.map (fun p => colUri csv_id p.1)).Nodup →
      (cellAttrs csv_id cs).countP
          (fun a => a.1 == RKey.kcol (colUri csv_id (cs.get ⟨j, hj⟩).1)) =
        (if (cs.get ⟨j, hj⟩).2.isSome then 1 else 0) := by
  intro cs
  induction cs with
  | nil => intro j hj; simp at hj
  | cons p rest ih =>
    intro j hj hnd
    obtain ⟨hnotin0, htail⟩ := List.nodup_cons.mp hnd
    rcases p with ⟨c, v⟩
    have hnotin : colUri csv_id c ∉ rest.map (fun p => colUri csv_id p.1) := hnotin0
    cases j with
    | zero =>
      have hz : ∀ q ∈ rest, colUri csv_id q.1 ≠ colUri csv_id c := by
        intro q hq heq
        exact hnotin (heq ▸ List.mem_map.mpr ⟨q, hq, rfl⟩)
      have h0 := cellAttrs_countP_zero csv_id (colUri csv_id c) rest hz
      cases v with
      | none =>
        show (cellAttrs csv_id ((c, none) :: rest)).countP
            (fun a => a.1 == RKey.kcol (colUri csv_id c)) = if (none : Option PyVal).isSome then 1 else 0
        rw [cellAttrs_cons_none, h0]
        rfl
      | some x =>
        show (cellAttrs csv_id ((c, some x) :: rest)).countP
            (fun a => a.1 == RKey.kcol (colUri csv_id c)) = if (some x).isSome then 1 else 0
        rw [cellAttrs_cons_some, List.countP_cons, h0]
        simp
    | succ j =>
      have hj2 : j < rest.length := by simpa using hj
      have hget1 : (((c, v) :: rest).get ⟨j + 1, hj⟩) = rest.get ⟨j, hj2⟩ := rfl
      rw [hget1]
      have hkey : colUri csv_id ((rest.get ⟨j, hj2⟩).1) ≠ colUri csv_id c := by
        intro heq
        exact hnotin (heq ▸ List.mem_map.mpr ⟨rest.get ⟨j, hj2⟩, List.get_mem rest j hj2, rfl⟩)
      have hrest := ih j hj2 htail
      cases v with
      | none =>
        rw [cellAttrs_cons_none]
        exact hrest
      | some x =>
        have hb : ((RKey.kcol (colUri csv_id c) : RKey) ==
            RKey.kcol (colUri csv_id ((rest.get ⟨j, hj2⟩).1))) = false := by
          refine beq_eq_false_iff_ne.mpr ?_
          intro heq
          have heq2 : colUri csv_id c = colUri csv_id (rest.get ⟨j, hj2⟩).1 := by
            simpa using heq
          exact hkey heq2.symm
        rw [cellAttrs_cons_some, List.countP_cons, hrest]
        simp only [hb, Bool.false_eq_true, if_false, Nat.add_zero]

/-- Without a row cap, every data row yields exactly one row entity. -/
theorem csvRowsGo_none_length (csv_id : PyStr) (columns : List PyStr) :
    ∀ (rows : List (List (Option PyVal))) (rc : Nat),
      (csvRowsGo csv_id columns none rows rc).length = rows.length := by
  intro rows
  induction rows with
  | nil => intro rc; rfl
  | cons r rs ih => intro rc; simp [csvRowsGo, capReached, ih]

/-- C8: without a row cap every data row yields exactly one row entity, and
a row's attribute multimap holds exactly one entry for each column whose
cell is present and no entry at all for a column whose cell is absent or
was read as not-a-number, provided the sanitized column uris are duplicate
free. -/
theorem csv_row_cell_attrs (csv_id : PyStr) (columns : List PyStr)
    (rows : List (List (Option PyVal)))
    (hnd : (columns.map (colUri csv_id)).Nodup) :
    (csvRows csv_id columns rows none).length = rows.length ∧
    (∀ (rc : Nat) (r : List (Option PyVal)), r.length = columns.length →
      ∀ (j : Nat) (hj : j < columns.length),
        (rowAttrs csv_id columns rc r).countP
            (fun a => a.1 == RKey.kcol (colUri csv_id (columns.get ⟨j, hj⟩))) =
          if (r.getD j none).isSome then 1 else 0) := by
  constructor
  · exact csvRowsGo_none_length csv_id columns rows 0
  · intro rc r hr j hj
    have hlen : (columns.zip r).length = columns.length := by
      rw [List.length_zip]; omega
    have hmapfst : (columns.zip r).map Prod.fst = columns :=
      List.map_fst_zip columns r (le_of_eq hr.symm)
    have hnd2 : ((columns.zip r).map (fun p => colUri csv_id p.1)).Nodup := by
      have hmm : (columns.zip r).map (fun p => colUri csv_id p.1) =
          ((columns.zip r).map Prod.fst).map (colUri csv_id) := by
        rw [List.map_map]; rfl
      rw [hmm, hmapfst]; exact hnd
    have hfresh : ∀ p ∈ columns.zip r,
        ∀ q ∈ ([(RKey.ptype, RVal.uriv "nidm:csv_row"),
                (RKey.ploc, RVal.natv rc)] : List (RKey × RVal)),
          q.1 ≠ RKey.kcol (colUri csv_id p.1) := by
      intro p _ q hq
      rcases List.mem_cons.mp hq with rfl | hq2
      · simp
      · rcases List.mem_singleton.mp hq2 with rfl
        simp
    have hac : rowAttrs csv_id columns rc r =
        [(RKey.ptype, RVal.uriv "nidm:csv_row"), (RKey.ploc, RVal.natv rc)] ++
          cellAttrs csv_id (columns.zip r) := by
      unfold rowAttrs
      exact addCells_eq csv_id (columns.zip r) _ hfresh hnd2
    rw [hac, List.countP_append]
    have hbase : ([(RKey.ptype, RVal.uriv "nidm:csv_row"),
        (RKey.ploc, RVal.natv rc)] : List (RKey × RVal)).countP
          (fun a => a.1 == RKey.kcol (colUri csv_id (columns.get ⟨j, hj⟩))) = 0 := by
      simp [List.countP_cons]
    rw [hbase]
    have hj2 : j < (columns.zip r).length := by omega
    have hjr : j < r.length := by omega
    have hget : (columns.zip r).get ⟨j, hj2⟩ = (columns.get ⟨j, hj⟩, r.get ⟨j, hjr⟩) := by
      simp [List.get_eq_getElem, List.getElem_zip]
    have hcnt := cellAttrs_countP csv_id (columns.zip r) j hj2 hnd2
    rw [hget] at hcnt
    rw [hcnt]
    have hgd : r.getD j none = r.get ⟨j, hjr⟩ := by
      rw [List.getD_eq_getElem r none hjr]
      rfl
    rw [hgd]
    simp

/-- Witness for C8: a complete row and a row with one not-a-number cell. -/
theorem csv_row_cell_attrs_witness :
    (csvRows wCsvId wCols wRows none).length = wRows.length ∧
    (rowAttrs wCsvId wCols 2 wRow2).countP
        (fun a => a.1 == RKey.kcol (colUri wCsvId (wCols.get ⟨1, by decide⟩))) =
      (if (wRow2.getD 1 none).isSome then 1 else 0) :=
  ⟨(csv_row_cell_attrs wCsvId wCols wRows (by decide)).1,
   (csv_row_cell_attrs wCsvId wCols wRows (by decide)).2 2 wRow2 (by decide) 1 (by decide)⟩

/-- C9: safe_encode is total on the cell value universe and never rejects a
type: None becomes the string literal Unknown, strings keep the string
datatype, ints the integer datatype, floats the float datatype, and every
other json-serializable value falls back to its textual serialization with
string datatype. -/
theorem safe_encode_total_policy :
    (safe_encode PyVal.vnone = ⟨"Unknown", "xsd:string"⟩) ∧
    (∀ s, safe_encode (PyVal.vstr s) = ⟨s, "xsd:string"⟩) ∧
    (∀ n, safe_encode (PyVal.vint n) = ⟨toString n, "xsd:integer"⟩) ∧
    (∀ fr, safe_encode (PyVal.vfloat fr) = ⟨fr, "xsd:float"⟩) ∧
    (∀ j, safe_encode (PyVal.vother j) = ⟨jdumps j, "xsd:string"⟩) ∧
    (∀ x, (safe_encode x).dt = "xsd:string" ∨ (safe_encode x).dt = "xsd:integer" ∨
          (safe_encode x).dt = "xsd:float") := by
  refine ⟨rfl, fun s => rfl, fun n => rfl, fun fr => rfl, fun j => rfl, fun x => ?_⟩
  cases x <;> simp [safe_encode]
